import Mathlib

/-!
Verification of the profile comparison core of pyBreezeChMS.

The development shallowly embeds `breeze_chms_api/profile_helper.py` and the
profile-field part of `breeze_chms_api/breeze.py`:

* Python (ordered) dictionaries become association lists `List (String × α)`
  whose entry order is the dictionary's insertion order;
* the `while` loop of `join_dicts` becomes a fuel-indexed structural recursion
  (`joinLoopF`); the fuel `|left| + |right| + 1` is proved sufficient
  (`joinLoopF_fuel_stable`);
* dynamic Python values become the inductive `PyV`; fallible operations return
  `Except PErr`, where `PErr` stands for a raised Python exception;
* the mutable state of `BreezeApi` (memoised profile-field tables) becomes the
  record `BreezeState`, with the HTTP fetch modelled as an oracle
  `Nat → List CatSection` indexed by how many requests were made before;
* the in-place mutation behaviour of `join_dicts` is additionally rendered on an
  explicit heap of dictionaries (`joinLoopHF`) to settle the frame claim.
-/

set_option maxRecDepth 4000

namespace Breeze

/-- Keys of an association list, in order: the key view of a Python ordered
dictionary. -/
def keysOf {α : Type} (l : List (String × α)) : List String :=
  l.map Prod.fst

/-- Membership test for a key, modelling the Python expression `key in dct`. -/
def containsKey {α : Type} (k : String) : List (String × α) → Bool
  | [] => false
  | (k', _) :: t => k' == k || containsKey k t

/-- Value stored under a key, modelling `dct.get(key)` (and the value returned
by `dct.pop(key)`). -/
def getKeyVal {α : Type} (k : String) : List (String × α) → Option α
  | [] => Option.none
  | (k', v) :: t => if k' == k then some v else getKeyVal k t

/-- Removal of the entry under a key: the removal part of `dct.pop(key)`. -/
def eraseKey {α : Type} (k : String) : List (String × α) → List (String × α)
  | [] => []
  | (k', v) :: t => if k' == k then t else (k', v) :: eraseKey k t

/-- Assignment `dct[k] = v` on a Python (ordered) dictionary: an existing key
keeps its position, a new key is appended at the end. -/
def setKey {α : Type} (k : String) (v : α) : List (String × α) → List (String × α)
  | [] => [(k, v)]
  | (k', v') :: t => if k' == k then (k, v) :: t else (k', v') :: setKey k v t

/-- The `while` loop of `join_dicts` (profile_helper.py lines 333-363), with
explicit fuel.  State `(l, r)` renders Python's
`(key_left, val_left, dat_left)` / `(key_right, val_right, dat_right)`: each
queue is kept in full, its head being the currently popped item, so
`key_left is None` corresponds to `l = []`.  The Python loop condition
`while key_left or key_right` (false when both keys are `None` or empty
strings) is rendered per constructor shape: both queues empty, or every
available head key equal to the falsy `""`, ends the loop.  The four body
branches are, in order: heads equal; left head occurs later in right (pull it
out of `dat_right`); right head occurs later in left (requeue it at the back
of `dat_right` and emit left head alone); neither occurs in the other (emit
right head, then left head, each only if its key is truthy, as in
`if key_right:` / `if key_left:`). -/
def joinLoopF {α : Type} : Nat → List (String × α) → List (String × α) →
    List (String × (Option α × Option α))
  | 0, _, _ => []
  | _ + 1, [], [] => []
  | fuel + 1, [], (kr, vr) :: rt =>
    if kr == "" then []
    else (kr, (some vr, Option.none)) :: joinLoopF fuel [] rt
  | fuel + 1, (kl, vl) :: lt, [] =>
    if kl == "" then []
    else (kl, (Option.none, some vl)) :: joinLoopF fuel lt []
  | fuel + 1, (kl, vl) :: lt, (kr, vr) :: rt =>
    if kl == "" && kr == "" then []
    else if kl == kr then
      (kr, (some vr, some vl)) :: joinLoopF fuel lt rt
    else if containsKey kl rt then
      (kl, (getKeyVal kl rt, some vl)) :: joinLoopF fuel lt ((kr, vr) :: eraseKey kl rt)
    else if containsKey kr lt then
      (kl, (Option.none, some vl)) :: joinLoopF fuel lt (setKey kr vr rt)
    else if kr == "" then
      (kl, (Option.none, some vl)) :: joinLoopF fuel lt ((kr, vr) :: rt)
    else if kl == "" then
      (kr, (some vr, Option.none)) :: joinLoopF fuel ((kl, vl) :: lt) rt
    else
      (kr, (some vr, Option.none)) :: (kl, (Option.none, some vl)) :: joinLoopF fuel lt rt

/-- Model of `join_dicts(values_right, values_left)`: both inputs are copied
into ordered queues and merged by `joinLoopF`.  The fuel
`|left| + |right| + 1` is sufficient: every loop iteration strictly decreases
the sum of the queue lengths (`joinLoopF_fuel_stable`). -/
def join_dicts {α : Type} (values_right values_left : List (String × α)) :
    List (String × (Option α × Option α)) :=
  joinLoopF (values_left.length + values_right.length + 1) values_left values_right

/-- Right input of the concrete merge example from the spec (each key tagged
with its side). -/
def c1Right : List (String × String) :=
  [("a", "a:right"), ("l", "l:right"), ("x", "x:right"), ("c", "c:right"),
   ("d", "d:right"), ("e", "e:right"), ("b", "b:right"), ("z", "z:right"),
   ("q", "q:right")]

/-- Left input of the concrete merge example from the spec. -/
def c1Left : List (String × String) :=
  [("a", "a:left"), ("b", "b:left"), ("c", "c:left"), ("e", "e:left"),
   ("f", "f:left"), ("x", "x:left"), ("q", "q:left")]

/-- C1: on the ordered key lists right = [a,l,x,c,d,e,b,z,q] and
left = [a,b,c,e,f,x,q], with each key bound to a side-tagged value,
`join_dicts(right, left)` returns the mapping with key order exactly
[a,b,c,e,l,f,x,q,d,z], each key paired with (its right value or None, its left
value or None). -/
theorem join_dicts_merge_example :
    join_dicts c1Right c1Left =
      [("a", (some "a:right", some "a:left")),
       ("b", (some "b:right", some "b:left")),
       ("c", (some "c:right", some "c:left")),
       ("e", (some "e:right", some "e:left")),
       ("l", (some "l:right", Option.none)),
       ("f", (Option.none, some "f:left")),
       ("x", (some "x:right", some "x:left")),
       ("q", (some "q:right", some "q:left")),
       ("d", (some "d:right", Option.none)),
       ("z", (some "z:right", Option.none))] := by
  decide

@[simp] theorem keysOf_nil {α : Type} : keysOf ([] : List (String × α)) = [] := rfl

@[simp] theorem keysOf_cons {α : Type} (e : String × α) (t : List (String × α)) :
    keysOf (e :: t) = e.1 :: keysOf t := rfl

theorem containsKey_iff {α : Type} {k : String} {l : List (String × α)} :
    containsKey k l = true ↔ k ∈ keysOf l := by
  induction l with
  | nil => simp [containsKey]
  | cons e t ih =>
    obtain ⟨k', v⟩ := e
    simp only [containsKey, keysOf_cons, Bool.or_eq_true, beq_iff_eq, List.mem_cons, ih]
    exact or_congr_left eq_comm

theorem keysOf_eraseKey_sublist {α : Type} (k : String) (l : List (String × α)) :
    List.Sublist (keysOf (eraseKey k l)) (keysOf l) := by
  induction l with
  | nil => simp [eraseKey]
  | cons e t ih =>
    obtain ⟨k', v⟩ := e
    by_cases h : k' = k
    · simp [eraseKey, h, List.sublist_cons_self]
    · simpa [eraseKey, h] using ih.cons₂ k'

theorem mem_keysOf_eraseKey {α : Type} {a k : String} {l : List (String × α)}
    (h : (keysOf l).Nodup) :
    a ∈ keysOf (eraseKey k l) ↔ a ∈ keysOf l ∧ a ≠ k := by
  induction l with
  | nil => simp [eraseKey]
  | cons e t ih =>
    obtain ⟨k', v⟩ := e
    simp only [keysOf_cons, List.nodup_cons] at h
    by_cases hk : k' = k
    · subst hk
      simp only [eraseKey, beq_self_eq_true, if_true, keysOf_cons, List.mem_cons]
      constructor
      · intro hm
        exact ⟨Or.inr hm, fun hak => h.1 (hak ▸ hm)⟩
      · rintro ⟨hm | hm, hne⟩
        · exact absurd hm hne
        · exact hm
    · simp only [eraseKey, beq_iff_eq, hk, if_false, keysOf_cons, List.mem_cons, ih h.2]
      constructor
      · rintro (rfl | ⟨hm, hne⟩)
        · exact ⟨Or.inl rfl, hk⟩
        · exact ⟨Or.inr hm, hne⟩
      · rintro ⟨rfl | hm, hne⟩
        · exact Or.inl rfl
        · exact Or.inr ⟨hm, hne⟩

theorem length_eraseKey_of_contains {α : Type} {k : String} {l : List (String × α)}
    (h : containsKey k l = true) : (eraseKey k l).length + 1 = l.length := by
  induction l with
  | nil => simp [containsKey] at h
  | cons e t ih =>
    obtain ⟨k', v⟩ := e
    by_cases hk : k' = k
    · simp [eraseKey, hk]
    · simp only [containsKey, Bool.or_eq_true, beq_iff_eq, hk, false_or] at h
      simp [eraseKey, hk, ih h]

theorem setKey_eq_append {α : Type} {k : String} (v : α) {l : List (String × α)}
    (h : k ∉ keysOf l) : setKey k v l = l ++ [(k, v)] := by
  induction l with
  | nil => simp [setKey]
  | cons e t ih =>
    obtain ⟨k', v'⟩ := e
    simp only [keysOf_cons, List.mem_cons, not_or] at h
    simp [setKey, Ne.symm h.1, ih h.2]

theorem length_setKey_le {α : Type} (k : String) (v : α) (l : List (String × α)) :
    (setKey k v l).length ≤ l.length + 1 := by
  induction l with
  | nil => simp [setKey]
  | cons e t ih =>
    obtain ⟨k', v'⟩ := e
    by_cases hk : k' = k
    · simp [setKey, hk]
    · simp only [setKey, beq_iff_eq, hk, if_false, List.length_cons]
      omega

/-- Every iteration of the merge loop strictly decreases the sum of the two
queue lengths, so any fuel beyond that sum computes the loop's fixpoint. -/
theorem joinLoopF_fuel_stable {α : Type} :
    ∀ (n m : Nat) (l r : List (String × α)),
      l.length + r.length < n → l.length + r.length < m →
      joinLoopF n l r = joinLoopF m l r := by
  intro n
  induction n with
  | zero => intro m l r hn hm; omega
  | succ n ih =>
    intro m l r hn hm
    cases m with
    | zero => omega
    | succ m =>
      rcases l with _ | ⟨⟨kl, vl⟩, lt⟩ <;> rcases r with _ | ⟨⟨kr, vr⟩, rt⟩
      · rfl
      · simp only [List.length_nil, List.length_cons] at hn hm
        simp only [joinLoopF]
        by_cases h0 : (kr == "") = true
        · simp only [if_pos h0]
        · simp only [if_neg h0]
          rw [ih m [] rt (by simp only [List.length_nil]; omega)
            (by simp only [List.length_nil]; omega)]
      · simp only [List.length_nil, List.length_cons] at hn hm
        simp only [joinLoopF]
        by_cases h0 : (kl == "") = true
        · simp only [if_pos h0]
        · simp only [if_neg h0]
          rw [ih m lt [] (by simp only [List.length_nil]; omega)
            (by simp only [List.length_nil]; omega)]
      · simp only [List.length_cons] at hn hm
        simp only [joinLoopF]
        by_cases h0 : (kl == "" && kr == "") = true
        · simp only [if_pos h0]
        · simp only [if_neg h0]
          by_cases h1 : (kl == kr) = true
          · simp only [if_pos h1]
            rw [ih m lt rt (by omega) (by omega)]
          · simp only [if_neg h1]
            by_cases h2 : containsKey kl rt = true
            · have hlen := length_eraseKey_of_contains h2
              simp only [if_pos h2]
              rw [ih m lt ((kr, vr) :: eraseKey kl rt)
                (by simp only [List.length_cons]; omega)
                (by simp only [List.length_cons]; omega)]
            · simp only [if_neg h2]
              by_cases h3 : containsKey kr lt = true
              · have hlen := length_setKey_le kr vr rt
                simp only [if_pos h3]
                rw [ih m lt (setKey kr vr rt) (by omega) (by omega)]
              · simp only [if_neg h3]
                by_cases h4 : (kr == "") = true
                · simp only [if_pos h4]
                  rw [ih m lt ((kr, vr) :: rt)
                    (by simp only [List.length_cons]; omega)
                    (by simp only [List.length_cons]; omega)]
                · simp only [if_neg h4]
                  by_cases h5 : (kl == "") = true
                  · simp only [if_pos h5]
                    rw [ih m ((kl, vl) :: lt) rt
                      (by simp only [List.length_cons]; omega)
                      (by simp only [List.length_cons]; omega)]
                  · simp only [if_neg h5]
                    rw [ih m lt rt (by omega) (by omega)]

/-- Key-level correctness of the merge loop on dictionaries whose keys are
pairwise distinct non-empty strings: the emitted keys are exactly the union of
the two key sets, without duplication. -/
theorem joinLoopF_keys {α : Type} :
    ∀ (fuel : Nat) (l r : List (String × α)),
      l.length + r.length < fuel →
      (keysOf l).Nodup → (keysOf r).Nodup →
      (∀ k ∈ keysOf l, k ≠ "") → (∀ k ∈ keysOf r, k ≠ "") →
      (keysOf (joinLoopF fuel l r)).Nodup ∧
        ∀ k, k ∈ keysOf (joinLoopF fuel l r) ↔ k ∈ keysOf l ∨ k ∈ keysOf r := by
  intro fuel
  induction fuel with
  | zero => intro l r hn; omega
  | succ fuel ih =>
    intro l r hn hnl hnr htl htr
    rcases l with _ | ⟨⟨kl, vl⟩, lt⟩ <;> rcases r with _ | ⟨⟨kr, vr⟩, rt⟩
    · simp [joinLoopF]
    · simp only [List.length_nil, List.length_cons] at hn
      simp only [keysOf_cons, List.nodup_cons] at hnr
      have hkr : kr ≠ "" := htr kr (by simp)
      have htr' : ∀ k ∈ keysOf rt, k ≠ "" := fun k hk => htr k (by simp [hk])
      have h0 : ¬((kr == "") = true) := by simpa using hkr
      obtain ⟨ihn, ihm⟩ := ih [] rt (by simp only [List.length_nil]; omega)
        (by simp) hnr.2 (by simp) htr'
      simp only [joinLoopF, if_neg h0, keysOf_cons, List.nodup_cons, ihm, keysOf_nil,
        List.not_mem_nil, false_or, List.mem_cons]
      refine ⟨⟨hnr.1, ihn⟩, ?_⟩
      intro k
      tauto
    · simp only [List.length_nil, List.length_cons] at hn
      simp only [keysOf_cons, List.nodup_cons] at hnl
      have hkl : kl ≠ "" := htl kl (by simp)
      have htl' : ∀ k ∈ keysOf lt, k ≠ "" := fun k hk => htl k (by simp [hk])
      have h0 : ¬((kl == "") = true) := by simpa using hkl
      obtain ⟨ihn, ihm⟩ := ih lt [] (by simp only [List.length_nil]; omega)
        hnl.2 (by simp) htl' (by simp)
      simp only [joinLoopF, if_neg h0, keysOf_cons, List.nodup_cons, ihm, keysOf_nil,
        List.not_mem_nil, or_false, List.mem_cons]
      refine ⟨⟨hnl.1, ihn⟩, ?_⟩
      intro k
      tauto
    · simp only [List.length_cons] at hn
      simp only [keysOf_cons, List.nodup_cons] at hnl hnr
      have hkl : kl ≠ "" := htl kl (by simp)
      have hkr : kr ≠ "" := htr kr (by simp)
      have htl' : ∀ k ∈ keysOf lt, k ≠ "" := fun k hk => htl k (by simp [hk])
      have htr' : ∀ k ∈ keysOf rt, k ≠ "" := fun k hk => htr k (by simp [hk])
      have h0 : ¬((kl == "" && kr == "") = true) := by
        simp [Bool.and_eq_true, beq_iff_eq, hkl]
      by_cases h1 : (kl == kr) = true
      · have h1' : kl = kr := by simpa using h1
        subst h1'
        obtain ⟨ihn, ihm⟩ := ih lt rt (by omega) hnl.2 hnr.2 htl' htr'
        simp only [joinLoopF, if_neg h0, if_pos h1, keysOf_cons, List.nodup_cons, ihm,
          List.mem_cons]
        refine ⟨⟨?_, ihn⟩, ?_⟩
        · rintro (hk | hk)
          · exact hnl.1 hk
          · exact hnr.1 hk
        · intro k
          tauto
      · have h1' : kl ≠ kr := by simpa using h1
        by_cases h2 : containsKey kl rt = true
        · have h2' : kl ∈ keysOf rt := containsKey_iff.mp h2
          have hsub := keysOf_eraseKey_sublist kl rt
          have hnr' : (keysOf ((kr, vr) :: eraseKey kl rt)).Nodup := by
            simp only [keysOf_cons, List.nodup_cons]
            exact ⟨fun hm => hnr.1 (hsub.mem hm), hnr.2.sublist hsub⟩
          have htr'' : ∀ k ∈ keysOf ((kr, vr) :: eraseKey kl rt), k ≠ "" := by
            intro k hk
            rcases List.mem_cons.mp hk with rfl | hk
            · exact hkr
            · exact htr' k (hsub.mem hk)
          have hlen := length_eraseKey_of_contains h2
          obtain ⟨ihn, ihm⟩ := ih lt ((kr, vr) :: eraseKey kl rt)
            (by simp only [List.length_cons]; omega) hnl.2 hnr' htl' htr''
          have herase : ∀ a : String,
              a ∈ keysOf (eraseKey kl rt) ↔ a ∈ keysOf rt ∧ a ≠ kl :=
            fun a => mem_keysOf_eraseKey hnr.2
          simp only [joinLoopF, if_neg h0, if_neg h1, if_pos h2, keysOf_cons,
            List.nodup_cons, ihm, List.mem_cons, herase]
          refine ⟨⟨?_, ihn⟩, ?_⟩
          · rintro (hk | rfl | hk)
            · exact hnl.1 hk
            · exact h1' rfl
            · exact hk.2 rfl
          · intro k
            constructor
            · rintro (rfl | hk | rfl | hk)
              · exact Or.inl (Or.inl rfl)
              · exact Or.inl (Or.inr hk)
              · exact Or.inr (Or.inl rfl)
              · exact Or.inr (Or.inr hk.1)
            · rintro ((rfl | hk) | (rfl | hk))
              · exact Or.inl rfl
              · exact Or.inr (Or.inl hk)
              · exact Or.inr (Or.inr (Or.inl rfl))
              · by_cases hkkl : k = kl
                · exact Or.inl hkkl
                · exact Or.inr (Or.inr (Or.inr ⟨hk, hkkl⟩))
        · have h2' : kl ∉ keysOf rt := fun hm => h2 (containsKey_iff.mpr hm)
          by_cases h3 : containsKey kr lt = true
          · have h3' : kr ∈ keysOf lt := containsKey_iff.mp h3
            have hset : setKey kr vr rt = rt ++ [(kr, vr)] := setKey_eq_append vr hnr.1
            have hkeyset : keysOf (setKey kr vr rt) = keysOf rt ++ [kr] := by
              rw [hset]
              simp [keysOf]
            have hnr' : (keysOf (setKey kr vr rt)).Nodup := by
              rw [hkeyset]
              refine List.Nodup.append hnr.2 (by simp) ?_
              intro a ha hb
              simp only [List.mem_singleton] at hb
              exact hnr.1 (hb ▸ ha)
            have htr'' : ∀ k ∈ keysOf (setKey kr vr rt), k ≠ "" := by
              rw [hkeyset]
              intro k hk
              rcases List.mem_append.mp hk with hk | hk
              · exact htr' k hk
              · simp only [List.mem_singleton] at hk
                exact hk ▸ hkr
            have hsetlen : (setKey kr vr rt).length = rt.length + 1 := by
              rw [hset]
              simp
            obtain ⟨ihn, ihm⟩ := ih lt (setKey kr vr rt) (by omega) hnl.2 hnr' htl' htr''
            simp only [joinLoopF, if_neg h0, if_neg h1, if_neg h2, if_pos h3, keysOf_cons,
              List.nodup_cons, ihm, hkeyset, List.mem_append, List.mem_singleton,
              List.mem_cons, List.not_mem_nil, or_false]
            refine ⟨⟨?_, ihn⟩, ?_⟩
            · rintro (hk | hk | rfl)
              · exact hnl.1 hk
              · exact h2' hk
              · exact h1' rfl
            · intro k
              constructor
              · rintro (rfl | hk | hk | rfl)
                · exact Or.inl (Or.inl rfl)
                · exact Or.inl (Or.inr hk)
                · exact Or.inr (Or.inr hk)
                · exact Or.inr (Or.inl rfl)
              · rintro ((rfl | hk) | (rfl | hk))
                · exact Or.inl rfl
                · exact Or.inr (Or.inl hk)
                · exact Or.inr (Or.inr (Or.inr rfl))
                · exact Or.inr (Or.inr (Or.inl hk))
          · have h3' : kr ∉ keysOf lt := fun hm => h3 (containsKey_iff.mpr hm)
            have h4 : ¬((kr == "") = true) := by simpa using hkr
            have h5 : ¬((kl == "") = true) := by simpa using hkl
            obtain ⟨ihn, ihm⟩ := ih lt rt (by omega) hnl.2 hnr.2 htl' htr'
            simp only [joinLoopF, if_neg h0, if_neg h1, if_neg h2, if_neg h3, if_neg h4,
              if_neg h5, keysOf_cons, List.nodup_cons, ihm, List.mem_cons]
            refine ⟨⟨?_, ?_, ihn⟩, ?_⟩
            · rintro (rfl | hk | hk)
              · exact h1' rfl
              · exact h3' hk
              · exact hnr.1 hk
            · rintro (hk | hk)
              · exact hnl.1 hk
              · exact h2' hk
            · intro k
              constructor
              · rintro (rfl | rfl | hk | hk)
                · exact Or.inr (Or.inl rfl)
                · exact Or.inl (Or.inl rfl)
                · exact Or.inl (Or.inr hk)
                · exact Or.inr (Or.inr hk)
              · rintro ((rfl | hk) | (rfl | hk))
                · exact Or.inr (Or.inl rfl)
                · exact Or.inr (Or.inr (Or.inl hk))
                · exact Or.inl rfl
                · exact Or.inr (Or.inr (Or.inr hk))
/-- C2 (amended): for input dictionaries whose keys are pairwise distinct
non-empty strings, the key set of `join_dicts(right, left)` is exactly the
union of the two key sets: no key is dropped, none is emitted twice, and the
output length is the cardinality of the union. -/
theorem join_dicts_key_union {α : Type} (r l : List (String × α))
    (hnr : (keysOf r).Nodup) (hnl : (keysOf l).Nodup)
    (htr : ∀ k ∈ keysOf r, k ≠ "") (htl : ∀ k ∈ keysOf l, k ≠ "") :
    (keysOf (join_dicts r l)).Nodup ∧
      (∀ k, k ∈ keysOf (join_dicts r l) ↔ k ∈ keysOf r ∨ k ∈ keysOf l) ∧
      (join_dicts r l).length = ((keysOf r).toFinset ∪ (keysOf l).toFinset).card := by
  have h := joinLoopF_keys (l.length + r.length + 1) l r (by omega) hnl hnr htl htr
  have hnodup : (keysOf (join_dicts r l)).Nodup := h.1
  have hmem : ∀ k, k ∈ keysOf (join_dicts r l) ↔ k ∈ keysOf r ∨ k ∈ keysOf l :=
    fun k => (h.2 k).trans or_comm
  refine ⟨hnodup, hmem, ?_⟩
  have hfin : (keysOf (join_dicts r l)).toFinset = (keysOf r).toFinset ∪ (keysOf l).toFinset := by
    ext k
    simp [hmem]
  have hlen : (keysOf (join_dicts r l)).length = (join_dicts r l).length := by
    simp [keysOf]
  rw [← hfin, ← hlen, List.toFinset_card_of_nodup hnodup]

/-- C2 counterexample: for the inputs right = a dictionary holding only the
empty-string key and left = the empty dictionary, `join_dicts` returns an
empty mapping, dropping a key present in an input (the loop's truthiness test
treats the empty-string key as exhaustion). -/
theorem join_dicts_key_union_cex :
    "" ∈ keysOf [(("" : String), "r")] ∧
      join_dicts [(("" : String), "r")] ([] : List (String × String)) = [] := by
  constructor
  · simp [keysOf]
  · decide

/-- C2 witness: the amended key-union theorem applied at concrete inputs. -/
theorem join_dicts_key_union_witness :
    (keysOf (join_dicts [("a", "1")] [("b", "2")])).Nodup ∧
      (∀ k, k ∈ keysOf (join_dicts [("a", "1")] [("b", "2")]) ↔
        k ∈ keysOf [("a", "1")] ∨ k ∈ keysOf [("b", "2")]) ∧
      (join_dicts [("a", "1")] [("b", "2")]).length =
        ((keysOf [("a", "1")]).toFinset ∪ (keysOf [("b", "2")]).toFinset).card :=
  join_dicts_key_union [("a", "1")] [("b", "2")]
    (by decide) (by decide) (by decide) (by decide)

/-! Dynamic Python values and the field extractors of `profile_helper.py`. -/

/-- Dynamic Python values as they occur in Breeze profile data. -/
inductive PyV : Type where
  | none : PyV
  | str : String → PyV
  | list : List PyV → PyV
  | dict : List (String × PyV) → PyV

/-- A raised Python exception. -/
inductive PErr : Type where
  | attributeError : PErr
  | typeError : PErr
deriving DecidableEq

/-- Python truthiness of a value: `None`, `""`, `[]` and an empty dict are
falsy. -/
def pyTruthy : PyV → Bool
  | PyV.none => false
  | PyV.str s => !(s == "")
  | PyV.list xs => !xs.isEmpty
  | PyV.dict es => !es.isEmpty

/-- Lookup in a Python dict with default `None`, modelling `dct.get(k)` on a
receiver already known to be a dict. -/
def dictLookup : List (String × PyV) → String → PyV
  | [], _ => PyV.none
  | (k', v) :: t, k => if k' == k then v else dictLookup t k

/-- Lookup with an explicit default, modelling `dct.get(k, d)`. -/
def dictLookupD : List (String × PyV) → String → PyV → PyV
  | [], _, d => d
  | (k', v) :: t, k, d => if k' == k then v else dictLookupD t k d

/-- Model of `value.get(k)`: `AttributeError` when the receiver is not a dict
(in particular `None.get(...)` raises). -/
def pyGet (v : PyV) (k : String) : Except PErr PyV :=
  match v with
  | PyV.dict es => Except.ok (dictLookup es k)
  | _ => Except.error PErr.attributeError

/-- Model of `value.get(k, d)`. -/
def pyGetD (v : PyV) (k : String) (d : PyV) : Except PErr PyV :=
  match v with
  | PyV.dict es => Except.ok (dictLookupD es k d)
  | _ => Except.error PErr.attributeError

/-- Python equality of a value against a string literal, as in
`entry.get('is_private', '') == '1'`: only an equal string compares equal. -/
def pyEqStr (v : PyV) (s : String) : Bool :=
  match v with
  | PyV.str t => t == s
  | _ => false

@[simp] theorem except_bind_ok {ε α β : Type} (a : α) (f : α → Except ε β) :
    (Except.ok a >>= f) = f a := rfl

@[simp] theorem except_bind_error {ε α β : Type} (e : ε) (f : α → Except ε β) :
    ((Except.error e : Except ε α) >>= f) = Except.error e := rfl

@[simp] theorem except_pure_eq {ε α : Type} (a : α) :
    (pure a : Except ε α) = Except.ok a := rfl

/-- A name part read by `profile.get(part, '')` in `_extract_name`.  An absent
key behaves as `''`; an explicit `null` is `Option.none` here (falsy, and not
concatenable); a present string is kept, including `""`.  A present non-string
non-`None` part is modelled as `TypeError` (Python would raise on the later
concatenations or produce `repr` noise through the f-strings; such parts do
not occur in profile data, which holds strings or nulls). -/
def namePartV (profile : PyV) (k : String) : Except PErr (Option String) := do
  let v ← pyGetD profile k (PyV.str "")
  match v with
  | PyV.str s => pure (some s)
  | PyV.none => pure Option.none
  | _ => Except.error PErr.typeError

/-- Model of `_extract_name` (profile_helper.py lines 6-24): builds
`"{last}, {first}"`, with the nickname appended in parentheses when truthy and
different from the first name, and the middle name appended after that.
`Option.none` parts behave like Python `None`: falsy in the `if` tests, but
raising `TypeError` when the code concatenates onto them; when the base name
is `None` and nothing is appended, the function returns `None` itself. -/
def extract_name (profile : PyV) : Except PErr PyV := do
  let lastP ← namePartV profile "last_name"
  let firstP ← namePartV profile "first_name"
  let middleP ← namePartV profile "middle_name"
  let nickP ← namePartV profile "nick_name"
  let first1 ←
    match nickP with
    | some n =>
      if n ≠ "" ∧ (firstP.elim true (fun f => n != f)) then
        match firstP with
        | some f => pure (some (f ++ " (" ++ n ++ ")"))
        | Option.none => Except.error PErr.typeError
      else pure firstP
    | Option.none => pure firstP
  let first2 ←
    match middleP with
    | some m =>
      if m ≠ "" then
        match first1 with
        | some f => pure (some (f ++ " " ++ m))
        | Option.none => Except.error PErr.typeError
      else pure first1
    | Option.none => pure first1
  match first2, lastP with
  | some f, some l => pure (if f ≠ "" then PyV.str (l ++ ", " ++ f) else PyV.str l)
  | some f, Option.none =>
    if f ≠ "" then Except.error PErr.typeError else pure PyV.none
  | Option.none, some l => pure (PyV.str l)
  | Option.none, Option.none => pure PyV.none

/-- Model of `_delist`: `None` for an empty or missing list, the sole element
of a singleton list, the list itself otherwise. -/
def delist : Option (List PyV) → PyV
  | Option.none => PyV.none
  | some [] => PyV.none
  | some [v] => v
  | some vs => PyV.list vs

/-- Model of `_MultiValueExtractor._extract_entry`: keep the entry's `name`
when truthy. -/
def extractEntryMulti (entry : PyV) : Except PErr (List PyV) := do
  let v ← pyGet entry "name"
  pure (if pyTruthy v then [v] else [])

/-- Model of `_EmailExtractor._extract_entry`.  An entry with a truthy address
but no string `field_type` raises: Python evaluates
`entry.get('field_type')[6:]` and slicing `None` is a `TypeError`.  A truthy
non-string address is modelled as `TypeError` (Python would raise on the
string concatenations). -/
def extractEntryEmail (entry : PyV) : Except PErr (List PyV) := do
  let emailV ← pyGet entry "address"
  if pyTruthy emailV then
    match emailV with
    | PyV.str email => do
      let priv ← pyGetD entry "is_private" (PyV.str "")
      let email1 := if pyEqStr priv "1" then email ++ "(private)" else email
      let ft ← pyGet entry "field_type"
      match ft with
      | PyV.str s =>
        let fname := s.drop 6
        pure [PyV.str (if fname == "primary" then email1 else fname ++ ":" ++ email1)]
      | _ => Except.error PErr.typeError
    | _ => Except.error PErr.typeError
  else
    pure []

/-- Model of `_PhoneExtractor._extract_entry`: entries missing the number or
the type are skipped entirely.  Truthy non-string numbers or types are
modelled as `TypeError`. -/
def extractEntryPhone (entry : PyV) : Except PErr (List PyV) := do
  let phoneV ← pyGet entry "phone_number"
  let ptV ← pyGet entry "phone_type"
  if pyTruthy ptV && pyTruthy phoneV then
    match phoneV, ptV with
    | PyV.str phone, PyV.str pt => do
      let priv ← pyGetD entry "is_private" (PyV.str "")
      let phone1 := if pyEqStr priv "1" then phone ++ "(private)" else phone
      let dnt ← pyGetD entry "do_not_text" (PyV.str "")
      let phone2 := if pyEqStr dnt "1" then phone1 ++ "(no text)" else phone1
      pure [PyV.str (if pt == "primary" then phone2 else pt ++ ":" ++ phone2)]
    | _, _ => Except.error PErr.typeError
  else
    pure []

/-- Model of `_FamilyExtractor._extract_entry`: the related person's display
name from the entry's `details` (an absent `details` raises `AttributeError`,
since Python calls `.get` on `None`), with the role name appended in
parentheses when truthy. -/
def extractEntryFamily (entry : PyV) : Except PErr (List PyV) := do
  let details ← pyGet entry "details"
  let nameV ← extract_name details
  let role ← pyGet entry "role_name"
  if pyTruthy role then
    match nameV, role with
    | PyV.str n, PyV.str r => pure [PyV.str (n ++ " (" ++ r ++ ")")]
    | _, _ => Except.error PErr.typeError
  else
    pure [nameV]

/-- A truthy address component used by `_AddressExtractor`: absent or falsy
components are skipped; truthy non-string components are modelled as
`TypeError` (Python raises in `str.join` or on `.split`). -/
def addrComponent (entry : PyV) (k : String) : Except PErr (Option String) := do
  let v ← pyGet entry k
  if pyTruthy v then
    match v with
    | PyV.str s => pure (some s)
    | _ => Except.error PErr.typeError
  else
    pure Option.none

/-- Model of `_AddressExtractor._extract_entry`: one semicolon-joined string
from the street lines (split on the literal `<br />` marker) and the
space-joined city/state/zip line, omitting blanks; a falsy entry yields
nothing. -/
def extractEntryAddress (entry : PyV) : Except PErr (List PyV) := do
  if pyTruthy entry then do
    let city ← addrComponent entry "city"
    let state ← addrComponent entry "state"
    let zipc ← addrComponent entry "zip"
    let csz := " ".intercalate ([city, state, zipc].filterMap id)
    let sa1 ← addrComponent entry "street_address"
    let sa2 ← addrComponent entry "street_address_2"
    let fields := (match sa1 with
      | some s => s.splitOn "<br />"
      | Option.none => []) ++
      (match sa2 with
      | some s => s.splitOn "<br />"
      | Option.none => []) ++ [csz]
    pure [PyV.str (";".intercalate (fields.filter (fun v => !(v == ""))))]
  else
    pure []

/-- Model of `_SimpleExtractor._process_field_value`: wrap the raw value. -/
def processSimple (value : PyV) : Except PErr (Option (List PyV)) :=
  Except.ok (some [value])

/-- Model of `_SingleValueExtractor._process_field_value`: the `name` member
of the `{value, name}` object; absent when that is falsy. -/
def processSingle (values : PyV) : Except PErr (Option (List PyV)) := do
  let v ← pyGet values "name"
  pure (if pyTruthy v then some [v] else Option.none)

/-- Iteration over a Python value, as in `for entry in values`: a list yields
its items, a dict its keys, a string its characters; `None` is not iterable. -/
def pyIter : PyV → Except PErr (List PyV)
  | PyV.list xs => Except.ok xs
  | PyV.dict es => Except.ok (es.map (fun e => PyV.str e.1))
  | PyV.str s => Except.ok (s.toList.map (fun c => PyV.str (String.singleton c)))
  | PyV.none => Except.error PErr.typeError

/-- The accumulation loop of `_MultiValueExtractor._process_field_value`:
`return_list += self._extract_entry(entry)` over the entries in order,
propagating the first raised exception. -/
def extractEntries (extractEntry : PyV → Except PErr (List PyV)) :
    List PyV → Except PErr (List PyV)
  | [] => Except.ok []
  | entry :: rest => do
    let vs ← extractEntry entry
    let tail ← extractEntries extractEntry rest
    pure (vs ++ tail)

/-- Model of `_MultiValueExtractor._process_field_value`: concatenate the
per-entry extractions; absent when nothing was produced. -/
def processMulti (extractEntry : PyV → Except PErr (List PyV)) (values : PyV) :
    Except PErr (Option (List PyV)) := do
  let entries ← pyIter values
  let rl ← extractEntries extractEntry entries
  pure (if rl.isEmpty then Option.none else some rl)

/-- The closed world of extractor classes reachable from `_extractors`, plus
the synthetic name and family extractors.  Registry constructors carry the
qualified field name and the field id the Python object is built with. -/
inductive Extractor : Type where
  | nameEx : Extractor
  | familyEx : Extractor
  | simple : String → String → Extractor
  | singleValue : String → String → Extractor
  | multiValue : String → String → Extractor
  | email : String → String → Extractor
  | phone : String → String → Extractor
  | address : String → String → Extractor

/-- The `_extractors` registry: field-type tag to extractor class, `none` for
unrecognised types (which are then silently skipped). -/
def extractorFor (field_type fname fid : String) : Option Extractor :=
  if field_type == "grade" then some (Extractor.simple fname fid)
  else if field_type == "single_line" then some (Extractor.simple fname fid)
  else if field_type == "multiple_choice" then some (Extractor.singleValue fname fid)
  else if field_type == "birthdate" then some (Extractor.simple fname fid)
  else if field_type == "date" then some (Extractor.simple fname fid)
  else if field_type == "notes" then some (Extractor.simple fname fid)
  else if field_type == "dropdown" then some (Extractor.singleValue fname fid)
  else if field_type == "checkbox" then some (Extractor.multiValue fname fid)
  else if field_type == "email" then some (Extractor.email fname fid)
  else if field_type == "phone" then some (Extractor.phone fname fid)
  else if field_type == "address" then some (Extractor.address fname fid)
  else Option.none

/-- Model of `_Extractor._value_from_details`: fetch the raw value under the
field id and process it when truthy. -/
def valueFromDetails (process : PyV → Except PErr (Option (List PyV)))
    (details : PyV) (fid : String) : Except PErr (Option (List PyV)) := do
  let value ← pyGet details fid
  if pyTruthy value then process value else pure Option.none

/-- Model of `get_value` for each extractor class.  Registry extractors read
`profile.get('details')` first (so a profile whose `details` is absent or not
a dict raises `AttributeError`); the family extractor reads the profile
itself; the name extractor returns the display name unwrapped. -/
def getValue (ex : Extractor) (profile : PyV) : Except PErr PyV :=
  match ex with
  | Extractor.nameEx => extract_name profile
  | Extractor.familyEx => do
    let v ← valueFromDetails (processMulti extractEntryFamily) profile "family"
    pure (delist v)
  | Extractor.simple _ fid => do
    let details ← pyGet profile "details"
    let v ← valueFromDetails processSimple details fid
    pure (delist v)
  | Extractor.singleValue _ fid => do
    let details ← pyGet profile "details"
    let v ← valueFromDetails processSingle details fid
    pure (delist v)
  | Extractor.multiValue _ fid => do
    let details ← pyGet profile "details"
    let v ← valueFromDetails (processMulti extractEntryMulti) details fid
    pure (delist v)
  | Extractor.email _ fid => do
    let details ← pyGet profile "details"
    let v ← valueFromDetails (processMulti extractEntryEmail) details fid
    pure (delist v)
  | Extractor.phone _ fid => do
    let details ← pyGet profile "details"
    let v ← valueFromDetails (processMulti extractEntryPhone) details fid
    pure (delist v)
  | Extractor.address _ fid => do
    let details ← pyGet profile "details"
    let v ← valueFromDetails (processMulti extractEntryAddress) details fid
    pure (delist v)

/-- A field definition from the profile-field catalog: the shape consumed from
the external API. -/
structure CatField : Type where
  field_id : String
  name : String
  field_type : String
deriving DecidableEq

/-- A catalog section: a name and its ordered field definitions. -/
structure CatSection : Type where
  name : String
  fields : List CatField
deriving DecidableEq

/-- Inner loop of `ProfileHelper.__init__` for one catalog section: register
an extractor for each field with a recognised type under its field id; other
fields are skipped. -/
def buildFieldsOfSection (sec : CatSection) : List CatField →
    List (String × Extractor) → List (String × Extractor)
  | [], acc => acc
  | fd :: rest, acc =>
    buildFieldsOfSection sec rest
      (match extractorFor fd.field_type (sec.name ++ ":" ++ fd.name) fd.field_id with
       | some ex => setKey fd.field_id ex acc
       | Option.none => acc)

/-- Outer loop of `ProfileHelper.__init__` over the catalog sections. -/
def buildFields : List CatSection → List (String × Extractor) →
    List (String × Extractor)
  | [], acc => acc
  | sec :: rest, acc => buildFields rest (buildFieldsOfSection sec sec.fields acc)

/-- Model of `ProfileHelper.__init__`: the insertion-ordered `id_to_field`
dictionary, seeded with the name extractor, filled from the catalog (the
stored display name is the qualified `"{section}:{field name}"`), and closed
with the family extractor. -/
def helperFields (catalog : List CatSection) : List (String × Extractor) :=
  setKey "family" Extractor.familyEx
    (buildFields catalog [("name", Extractor.nameEx)])

/-- The extraction loop of `process_member_profile`: run each extractor in
insertion order and store only truthy values. -/
def processFields (profile : PyV) : List (String × Extractor) →
    List (String × PyV) → Except PErr (List (String × PyV))
  | [], acc => Except.ok acc
  | (fid, ex) :: t, acc => do
    let value ← getValue ex profile
    processFields profile t (if pyTruthy value then setKey fid value acc else acc)

/-- Model of `ProfileHelper.process_member_profile`: start from
`{'name': _extract_name(profile)}` and add every truthy extracted value. -/
def process_member_profile (catalog : List CatSection) (profile : PyV) :
    Except PErr (List (String × PyV)) := do
  let nameV ← extract_name profile
  processFields profile (helperFields catalog) [("name", nameV)]

theorem mem_setKey {α : Type} {kv : String × α} {k : String} {v : α}
    {l : List (String × α)} (h : kv ∈ setKey k v l) : kv = (k, v) ∨ kv ∈ l := by
  induction l with
  | nil => simpa [setKey] using h
  | cons e t ih =>
    obtain ⟨k', v'⟩ := e
    by_cases hk : k' = k
    · subst hk
      simp only [setKey, beq_self_eq_true, if_true, List.mem_cons] at h
      rcases h with rfl | h
      · exact Or.inl rfl
      · exact Or.inr (List.mem_cons_of_mem _ h)
    · simp only [setKey, beq_iff_eq, hk, if_false, List.mem_cons] at h
      rcases h with rfl | h
      · exact Or.inr (List.mem_cons_self _ _)
      · rcases ih h with h | h
        · exact Or.inl h
        · exact Or.inr (List.mem_cons_of_mem _ h)

theorem getKeyVal_setKey_self {α : Type} (k : String) (v : α) (l : List (String × α)) :
    getKeyVal k (setKey k v l) = some v := by
  induction l with
  | nil => simp [setKey, getKeyVal]
  | cons e t ih =>
    obtain ⟨k', v'⟩ := e
    by_cases hk : k' = k
    · subst hk
      simp [setKey, getKeyVal]
    · simp [setKey, getKeyVal, hk, ih]

theorem getKeyVal_setKey_ne {α : Type} {k' k : String} (hne : k' ≠ k) (v : α)
    (l : List (String × α)) : getKeyVal k (setKey k' v l) = getKeyVal k l := by
  induction l with
  | nil => simp [setKey, getKeyVal, hne]
  | cons e t ih =>
    obtain ⟨k'', v'⟩ := e
    by_cases hk : k'' = k'
    · subst hk
      simp [setKey, getKeyVal, hne]
    · simp [setKey, getKeyVal, hk, ih]

/-- A truthy value is none of the falsy constants. -/
theorem pyTruthy_ne_falsy {v : PyV} (h : pyTruthy v = true) :
    v ≠ PyV.none ∧ v ≠ PyV.str "" ∧ v ≠ PyV.list [] := by
  refine ⟨?_, ?_, ?_⟩ <;> rintro rfl <;> simp [pyTruthy] at h

/-- The extraction loop only ever stores truthy values on top of the seeded
name entry. -/
theorem processFields_values {profile : PyV} :
    ∀ (flds : List (String × Extractor)) (acc res : List (String × PyV)),
      processFields profile flds acc = Except.ok res →
      (∀ kv ∈ acc, pyTruthy kv.2 = true ∨ kv.1 = "name") →
      ∀ kv ∈ res, pyTruthy kv.2 = true ∨ kv.1 = "name" := by
  intro flds
  induction flds with
  | nil =>
    intro acc res h hacc
    simp only [processFields] at h
    cases h
    exact hacc
  | cons e t ih =>
    obtain ⟨fid, ex⟩ := e
    intro acc res h hacc
    simp only [processFields, bind, Except.bind] at h
    split at h
    · exact absurd h (by simp)
    · refine ih _ _ h ?_
      split
      · next htruthy =>
        intro kv hm
        rcases mem_setKey hm with rfl | hm
        · exact Or.inl htruthy
        · exact hacc kv hm
      · exact hacc

/-- C4 (amended): whenever `process_member_profile` returns, no key other than
the synthetic name key maps to a falsy value — in particular not to `None`,
`""`, or `[]`.  The name key itself always holds the extracted display name,
which may be falsy (the empty string, or `None` when `last_name` is an
explicit null and no other name part is set). -/
theorem process_member_profile_no_empty (catalog : List CatSection) (profile : PyV)
    (res : List (String × PyV))
    (h : process_member_profile catalog profile = Except.ok res) :
    ∀ kv ∈ res, kv.1 ≠ "name" →
      pyTruthy kv.2 = true ∧ kv.2 ≠ PyV.none ∧ kv.2 ≠ PyV.str "" ∧ kv.2 ≠ PyV.list [] := by
  unfold process_member_profile at h
  simp only [bind, Except.bind] at h
  split at h
  · exact absurd h (by simp)
  · intro kv hm hname
    have hkv := processFields_values _ _ _ h (by
      intro kv' hm'
      simp only [List.mem_singleton] at hm'
      subst hm'
      exact Or.inr rfl) kv hm
    rcases hkv with htruthy | heq
    · exact ⟨htruthy, pyTruthy_ne_falsy htruthy⟩
    · exact absurd heq hname

/-- C4 counterexample: on the empty catalog and the empty profile, the
normaliser returns a mapping whose mandatory name key holds the empty string,
a falsy value. -/
theorem process_member_profile_no_empty_cex :
    process_member_profile [] (PyV.dict []) = Except.ok [("name", PyV.str "")] ∧
      pyTruthy (PyV.str "") = false :=
  ⟨rfl, rfl⟩

/-- Catalog with one single-line field, used to instantiate the normaliser
theorems. -/
def c4Catalog : List CatSection := [⟨"Sec", [⟨"1", "F", "single_line"⟩]⟩]

/-- Profile with a first name and one populated single-line field. -/
def c4Profile : PyV :=
  PyV.dict [("details", PyV.dict [("1", PyV.str "x")]), ("first_name", PyV.str "Bob")]

/-- C4 witness: the amended normaliser theorem applied at a concrete catalog
and profile. -/
theorem process_member_profile_no_empty_witness :
    pyTruthy (PyV.str "x") = true ∧ PyV.str "x" ≠ PyV.none ∧
      PyV.str "x" ≠ PyV.str "" ∧ PyV.str "x" ≠ PyV.list [] :=
  process_member_profile_no_empty c4Catalog c4Profile
    [("name", PyV.str ", Bob"), ("1", PyV.str "x")] rfl
    ("1", PyV.str "x") (by simp) (by simp)

/-- Section-loop invariant: when no processed field has the id `name`, the
binding under the key `name` can only be the name extractor. -/
theorem buildFieldsOfSection_name (sec : CatSection) :
    ∀ (flds : List CatField) (acc : List (String × Extractor)),
      (∀ fd ∈ flds, fd.field_id ≠ "name") →
      (∀ kv ∈ acc, kv.1 = "name" → kv.2 = Extractor.nameEx) →
      ∀ kv ∈ buildFieldsOfSection sec flds acc, kv.1 = "name" → kv.2 = Extractor.nameEx := by
  intro flds
  induction flds with
  | nil =>
    intro acc hf hacc
    simpa [buildFieldsOfSection] using hacc
  | cons fd rest ih =>
    intro acc hf hacc
    simp only [buildFieldsOfSection]
    cases hex : extractorFor fd.field_type (sec.name ++ ":" ++ fd.name) fd.field_id with
    | none =>
      simp only [hex]
      exact ih _ (fun fd' hm => hf fd' (List.mem_cons_of_mem _ hm)) hacc
    | some ex =>
      simp only [hex]
      refine ih _ (fun fd' hm => hf fd' (List.mem_cons_of_mem _ hm)) ?_
      intro kv hm hname
      rcases mem_setKey hm with rfl | hm
      · exact absurd hname (hf fd (List.mem_cons_self _ _))
      · exact hacc kv hm hname

/-- Catalog-loop invariant for the `name` binding. -/
theorem buildFields_name :
    ∀ (catalog : List CatSection) (acc : List (String × Extractor)),
      (∀ sec ∈ catalog, ∀ fd ∈ sec.fields, fd.field_id ≠ "name") →
      (∀ kv ∈ acc, kv.1 = "name" → kv.2 = Extractor.nameEx) →
      ∀ kv ∈ buildFields catalog acc, kv.1 = "name" → kv.2 = Extractor.nameEx := by
  intro catalog
  induction catalog with
  | nil =>
    intro acc h hacc
    simpa [buildFields] using hacc
  | cons sec rest ih =>
    intro acc h hacc
    simp only [buildFields]
    exact ih _ (fun s hs => h s (List.mem_cons_of_mem _ hs))
      (buildFieldsOfSection_name sec sec.fields acc (h sec (List.mem_cons_self _ _)) hacc)

/-- In a catalog none of whose field ids is the synthetic id `name`, the only
`id_to_field` entry under the key `name` is the name extractor (dictionary
assignments for other field ids cannot displace it). -/
theorem helperFields_name (catalog : List CatSection)
    (hcat : ∀ sec ∈ catalog, ∀ fd ∈ sec.fields, fd.field_id ≠ "name") :
    ∀ kv ∈ helperFields catalog, kv.1 = "name" → kv.2 = Extractor.nameEx := by
  unfold helperFields
  intro kv hm hname
  rcases mem_setKey hm with rfl | hm
  · simp at hname
  · refine buildFields_name catalog _ hcat ?_ kv hm hname
    intro kv' hm' hname'
    simp only [List.mem_singleton] at hm'
    subst hm'
    rfl

/-- Through the extraction loop the name binding keeps the extracted display
name: the only extractor stored under the `name` key is the name extractor,
which recomputes the same value, and other keys cannot displace the binding. -/
theorem processFields_name {profile : PyV} {nameV : PyV}
    (hex : extract_name profile = Except.ok nameV) :
    ∀ (flds : List (String × Extractor)) (acc res : List (String × PyV)),
      processFields profile flds acc = Except.ok res →
      (∀ kv ∈ flds, kv.1 = "name" → kv.2 = Extractor.nameEx) →
      getKeyVal "name" acc = some nameV →
      getKeyVal "name" res = some nameV := by
  intro flds
  induction flds with
  | nil =>
    intro acc res h hflds hacc
    simp only [processFields] at h
    cases h
    exact hacc
  | cons e t ih =>
    obtain ⟨fid, ex⟩ := e
    intro acc res h hflds hacc
    simp only [processFields, bind, Except.bind] at h
    split at h
    · exact absurd h (by simp)
    · next value hvalue =>
      have hflds' : ∀ kv ∈ t, kv.1 = "name" → kv.2 = Extractor.nameEx :=
        fun kv hm => hflds kv (List.mem_cons_of_mem _ hm)
      refine ih _ _ h hflds' ?_
      by_cases hfid : fid = "name"
      · subst hfid
        have hexx : ex = Extractor.nameEx := hflds _ (List.mem_cons_self _ _) rfl
        subst hexx
        have : value = nameV := by
          have : getValue Extractor.nameEx profile = Except.ok value := hvalue
          rw [getValue, hex] at this
          exact (Except.ok.inj this).symm
        subst this
        split
        · rw [getKeyVal_setKey_self]
        · exact hacc
      · split
        · rw [getKeyVal_setKey_ne hfid]
          exact hacc
        · exact hacc

/-- C5: for every catalog whose field ids avoid the synthetic id `name` (the
data model keeps `name` and `family` synthetic), whenever the normaliser
returns, the result binds the key `name` to the extracted display name — even
when that display name is the empty string. -/
theorem process_member_profile_has_name (catalog : List CatSection)
    (hcat : ∀ sec ∈ catalog, ∀ fd ∈ sec.fields, fd.field_id ≠ "name")
    (profile : PyV) (res : List (String × PyV)) (nameV : PyV)
    (h : process_member_profile catalog profile = Except.ok res)
    (hex : extract_name profile = Except.ok nameV) :
    getKeyVal "name" res = some nameV := by
  unfold process_member_profile at h
  simp only [bind, Except.bind] at h
  split at h
  · exact absurd h (by simp)
  · next nameV' hname' =>
    have : nameV' = nameV := by
      rw [hname'] at hex
      exact Except.ok.inj hex
    subst this
    exact processFields_name hex _ _ _ h (helperFields_name catalog hcat)
      (by simp [getKeyVal])

/-- C5 witness: the name theorem applied at the empty profile, where the
display name is the empty string and is still bound. -/
theorem process_member_profile_has_name_witness :
    getKeyVal "name" [(("name" : String), PyV.str "")] = some (PyV.str "") :=
  process_member_profile_has_name [] (by intro sec hsec; simp at hsec)
    (PyV.dict []) [("name", PyV.str "")] (PyV.str "") rfl rfl

/-- Dictionary entry for an optional string field: absent fields contribute no
entry at all. -/
def optEntry (k : String) : Option String → List (String × PyV)
  | Option.none => []
  | some s => [(k, PyV.str s)]

/-- A profile carrying only (string-valued) name parts, the shape
`_extract_name` consumes. -/
def mkNameProfile (last : Option String) (first : String)
    (middle nick : Option String) : PyV :=
  PyV.dict (optEntry "last_name" last ++ [("first_name", PyV.str first)] ++
    optEntry "middle_name" middle ++ optEntry "nick_name" nick)

/-- The display name computed by `_extract_name` on string name parts, written
as a pure function of the four parts (absent parts read as `''`). -/
def nameOfParts (last first middle nick : String) : PyV :=
  let first1 := if nick ≠ "" ∧ (nick != first) then first ++ " (" ++ nick ++ ")" else first
  let first2 := if middle ≠ "" then first1 ++ " " ++ middle else first1
  if first2 ≠ "" then PyV.str (last ++ ", " ++ first2) else PyV.str last

/-- On profiles made only of string name parts, `_extract_name` computes the
`nameOfParts` formula. -/
theorem extract_name_mk (last : Option String) (first : String)
    (middle nick : Option String) :
    extract_name (mkNameProfile last first middle nick) =
      Except.ok (nameOfParts (last.getD "") first (middle.getD "") (nick.getD "")) := by
  rcases last with _ | l <;> rcases middle with _ | m <;> rcases nick with _ | n <;>
    simp [extract_name, namePartV, pyGetD, mkNameProfile, optEntry, dictLookupD,
      nameOfParts, Option.elim] <;>
    split_ifs <;> simp_all

/-- A string append starting from a non-empty string is non-empty. -/
theorem string_append_ne_empty {a : String} (b : String) (h : a ≠ "") :
    a ++ b ≠ "" := by
  intro hab
  apply h
  have hlen : a.length + b.length = 0 := by
    simpa [String.length_append] using congrArg String.length hab
  have ha : a.data.length = 0 := by
    have : a.length = 0 := by omega
    exact this
  have hdata : a.data = [] := List.length_eq_zero.mp ha
  cases a
  simp_all

/-- C6 counterexample: a profile with first name `Bob` and no last name (and
no nickname or middle name) yields the display name `", Bob"`, not `"Bob"`:
the code appends `', ' + first` even onto an empty last name, so the leading
`", "` is kept. -/
theorem extract_name_no_last_cex :
    extract_name (PyV.dict [("first_name", PyV.str "Bob")]) =
        Except.ok (PyV.str ", Bob") ∧
      (", Bob" : String) ≠ "Bob" :=
  ⟨rfl, by decide⟩

/-- C6 (amended): for every profile whose last name is absent or empty and
whose first name is non-empty, the display name keeps the leading `", "`: it
is `", "` followed by the first name (with the optional nickname and middle
name decorations appended after it). -/
theorem extract_name_no_last (last : Option String) (first : String)
    (middle nick : Option String)
    (hlast : last = Option.none ∨ last = some "") (hfirst : first ≠ "") :
    ∃ suffix, extract_name (mkNameProfile last first middle nick) =
      Except.ok (PyV.str (", " ++ (first ++ suffix))) := by
  have hl : last.getD "" = "" := by rcases hlast with rfl | rfl <;> rfl
  set n := nick.getD "" with hn
  set m := middle.getD "" with hm
  set s1 := if n ≠ "" ∧ (n != first) then " (" ++ n ++ ")" else "" with hs1
  set s2 := if m ≠ "" then " " ++ m else "" with hs2
  refine ⟨s1 ++ s2, ?_⟩
  rw [extract_name_mk, hl]
  have hfirst1 : (if n ≠ "" ∧ (n != first) then first ++ " (" ++ n ++ ")" else first)
      = first ++ s1 := by
    rw [hs1]
    split_ifs <;> simp [String.append_assoc]
  have hfirst2 : (if m ≠ "" then (first ++ s1) ++ " " ++ m else first ++ s1)
      = first ++ (s1 ++ s2) := by
    rw [hs2]
    split_ifs <;> simp [String.append_assoc]
  simp only [nameOfParts]
  rw [hfirst1, hfirst2, if_pos (string_append_ne_empty _ hfirst)]
  simp

/-- C6 witness: the amended theorem applied at a concrete profile with only a
first name. -/
theorem extract_name_no_last_witness :
    ∃ suffix, extract_name (mkNameProfile Option.none "Bob" Option.none Option.none) =
      Except.ok (PyV.str (", " ++ ("Bob" ++ suffix))) :=
  extract_name_no_last Option.none "Bob" Option.none Option.none (Or.inl rfl)
    (by decide)

/-- A phone entry with optional string sub-fields. -/
def phoneEntry (num pt priv dnt : Option String) : PyV :=
  PyV.dict (optEntry "phone_number" num ++ optEntry "phone_type" pt ++
    optEntry "is_private" priv ++ optEntry "do_not_text" dnt)

/-- An email entry with optional string sub-fields. -/
def emailEntry (addr priv ft : Option String) : PyV :=
  PyV.dict (optEntry "address" addr ++ optEntry "is_private" priv ++
    optEntry "field_type" ft)

/-- A family entry with a details value and an optional role name. -/
def familyEntry (details : PyV) (role : Option String) : PyV :=
  PyV.dict ([("details", details)] ++ optEntry "role_name" role)

/-- A profile whose `details` holds one raw field value under the given id. -/
def mkDetailsProfile (fid : String) (raw : PyV) : PyV :=
  PyV.dict [("details", PyV.dict [(fid, raw)])]

/-- A phone entry missing (or blank in) its number or its type is skipped, so
the phone field degrades to no value. -/
theorem phone_entry_skipped (fn fid : String) (num pt priv dnt : Option String)
    (h : num.getD "" = "" ∨ pt.getD "" = "") :
    getValue (Extractor.phone fn fid)
      (mkDetailsProfile fid (PyV.list [phoneEntry num pt priv dnt])) =
      Except.ok PyV.none := by
  rcases h with h | h
  · rcases num with _ | s
    · rcases pt with _ | t <;> rcases priv with _ | p <;> rcases dnt with _ | d <;>
        simp [getValue, valueFromDetails, processMulti, extractEntryPhone, pyIter,
          mkDetailsProfile, phoneEntry, optEntry, pyGet, pyGetD, dictLookup, dictLookupD,
          pyTruthy, delist, extractEntries]
    · simp only [Option.getD_some] at h
      subst h
      rcases pt with _ | t <;> rcases priv with _ | p <;> rcases dnt with _ | d <;>
        simp [getValue, valueFromDetails, processMulti, extractEntryPhone, pyIter,
          mkDetailsProfile, phoneEntry, optEntry, pyGet, pyGetD, dictLookup, dictLookupD,
          pyTruthy, delist, extractEntries]
  · rcases pt with _ | t
    · rcases num with _ | s <;> rcases priv with _ | p <;> rcases dnt with _ | d <;>
        simp [getValue, valueFromDetails, processMulti, extractEntryPhone, pyIter,
          mkDetailsProfile, phoneEntry, optEntry, pyGet, pyGetD, dictLookup, dictLookupD,
          pyTruthy, delist, extractEntries]
    · simp only [Option.getD_some] at h
      subst h
      rcases num with _ | s <;> rcases priv with _ | p <;> rcases dnt with _ | d <;>
        simp [getValue, valueFromDetails, processMulti, extractEntryPhone, pyIter,
          mkDetailsProfile, phoneEntry, optEntry, pyGet, pyGetD, dictLookup, dictLookupD,
          pyTruthy, delist, extractEntries]

/-- An email entry without a truthy address is skipped, so the email field
degrades to no value. -/
theorem email_entry_skipped (fn fid : String) (addr priv ft : Option String)
    (h : addr.getD "" = "") :
    getValue (Extractor.email fn fid)
      (mkDetailsProfile fid (PyV.list [emailEntry addr priv ft])) =
      Except.ok PyV.none := by
  rcases addr with _ | s
  · rcases priv with _ | p <;> rcases ft with _ | f <;>
      simp [getValue, valueFromDetails, processMulti, extractEntryEmail, pyIter,
        mkDetailsProfile, emailEntry, optEntry, pyGet, pyGetD, dictLookup, dictLookupD,
        pyTruthy, delist, extractEntries]
  · simp only [Option.getD_some] at h
    subst h
    rcases priv with _ | p <;> rcases ft with _ | f <;>
      simp [getValue, valueFromDetails, processMulti, extractEntryEmail, pyIter,
        mkDetailsProfile, emailEntry, optEntry, pyGet, pyGetD, dictLookup, dictLookupD,
        pyTruthy, delist, extractEntries]

/-- A checkbox entry without a `name` member contributes nothing, so the
field degrades to no value. -/
theorem multi_entry_skipped (fn fid : String) (v : Option String) :
    getValue (Extractor.multiValue fn fid)
      (mkDetailsProfile fid (PyV.list [PyV.dict (optEntry "value" v)])) =
      Except.ok PyV.none := by
  rcases v with _ | s <;>
    simp [getValue, valueFromDetails, processMulti, extractEntryMulti, pyIter,
      mkDetailsProfile, optEntry, pyGet, pyGetD, dictLookup, dictLookupD,
      pyTruthy, delist, extractEntries]

/-- A family entry with name-part details but no role name yields the related
person's display name without raising. -/
theorem family_entry_ok (last : Option String) (first : String)
    (middle nick : Option String) :
    getValue Extractor.familyEx
      (PyV.dict [("family",
        PyV.list [familyEntry (mkNameProfile last first middle nick) Option.none])]) =
      Except.ok (nameOfParts (last.getD "") first (middle.getD "") (nick.getD "")) := by
  have hname := extract_name_mk last first middle nick
  simp [getValue, valueFromDetails, processMulti, extractEntryFamily, pyIter,
    familyEntry, optEntry, pyGet, pyGetD, dictLookup, dictLookupD,
    pyTruthy, delist, extractEntries, hname]

/-- C8 (amended): extractors degrade absent or blank sub-fields to "no value"
rather than raising — a phone entry missing its number or type, an email
entry without an address, and a checkbox entry without a name are skipped,
and a family entry with details but no role yields the display name — except
that an email entry with an address but no `field_type` raises `TypeError`,
and a family entry without `details` raises `AttributeError`. -/
theorem extractor_degrades (fn fid : String) :
    (∀ num pt priv dnt : Option String, (num.getD "" = "" ∨ pt.getD "" = "") →
      getValue (Extractor.phone fn fid)
        (mkDetailsProfile fid (PyV.list [phoneEntry num pt priv dnt])) =
        Except.ok PyV.none) ∧
    (∀ addr priv ft : Option String, addr.getD "" = "" →
      getValue (Extractor.email fn fid)
        (mkDetailsProfile fid (PyV.list [emailEntry addr priv ft])) =
        Except.ok PyV.none) ∧
    (∀ v : Option String,
      getValue (Extractor.multiValue fn fid)
        (mkDetailsProfile fid (PyV.list [PyV.dict (optEntry "value" v)])) =
        Except.ok PyV.none) ∧
    (∀ (last : Option String) (first : String) (middle nick : Option String),
      getValue Extractor.familyEx
        (PyV.dict [("family",
          PyV.list [familyEntry (mkNameProfile last first middle nick) Option.none])]) =
        Except.ok (nameOfParts (last.getD "") first (middle.getD "") (nick.getD ""))) ∧
    getValue Extractor.familyEx
        (PyV.dict [("family", PyV.list [PyV.dict []])]) =
      Except.error PErr.attributeError :=
  ⟨phone_entry_skipped fn fid, email_entry_skipped fn fid, multi_entry_skipped fn fid,
    family_entry_ok, rfl⟩

/-- C8 counterexample: an email entry that has an address but no `field_type`
raises (`entry.get('field_type')[6:]` slices `None`, a `TypeError`) instead of
degrading to "no value". -/
theorem extractor_degrades_cex :
    getValue (Extractor.email "Communication:Email" "9")
      (PyV.dict [("details", PyV.dict
        [("9", PyV.list [PyV.dict [("address", PyV.str "a@b.c")]])])]) =
      Except.error PErr.typeError := rfl

/-- C8 witness: the degradation theorem applied at concrete phone and email
entries. -/
theorem extractor_degrades_witness :
    getValue (Extractor.phone "P" "7")
        (mkDetailsProfile "7"
          (PyV.list [phoneEntry Option.none (some "mobile") Option.none Option.none])) =
      Except.ok PyV.none ∧
    getValue (Extractor.email "E" "9")
        (mkDetailsProfile "9"
          (PyV.list [emailEntry Option.none Option.none Option.none])) =
      Except.ok PyV.none :=
  ⟨(extractor_degrades "P" "7").1 Option.none (some "mobile") Option.none Option.none
      (Or.inl rfl),
    (extractor_degrades "E" "9").2.1 Option.none Option.none Option.none rfl⟩

/-! The profile differ (`profile_compare`). -/

/-- A normalised profile field value: a single string or a list of strings
(`Dict[str, Union[str, List[str]]]` in the source). -/
inductive FieldVal : Type where
  | s : String → FieldVal
  | l : List String → FieldVal
deriving DecidableEq

/-- The set conversion of `profile_compare`:
`set(val if isinstance(val, list) else [val]) if val else set()`, rendered as
a duplicate-free list (falsy values give the empty set; a truthy list is
deduplicated, keeping any empty-string members). -/
def pySetL : Option FieldVal → List String
  | Option.none => []
  | some (FieldVal.s v) => if v = "" then [] else [v]
  | some (FieldVal.l vs) => if vs = [] then [] else vs.dedup

/-- Set difference `list(set_a - set_b)` on deduplicated lists. -/
def setDiffL (a b : List String) : List String :=
  a.filter (fun x => !b.contains x)

/-- Set equality of two deduplicated lists. -/
def setEqL (a b : List String) : Bool :=
  a.all (fun x => b.contains x) && b.all (fun x => a.contains x)

/-- Per-field step of `profile_compare`: `None` when the pair is skipped
(equal values, or equal value sets), otherwise the recorded tuple
`(display field name, reference-only values, current-only values)`, the
display name defaulting to the field id when unmapped. -/
def fieldDiff (field_map : List (String × String)) (fid : String)
    (vr vc : Option FieldVal) : Option (String × List String × List String) :=
  if vr = vc then Option.none
  else if setEqL (pySetL vr) (pySetL vc) then Option.none
  else some ((getKeyVal fid field_map).getD fid,
    setDiffL (pySetL vr) (pySetL vc), setDiffL (pySetL vc) (pySetL vr))

/-- The per-person loop of `profile_compare` over the merged field pairs, in
order. -/
def personResult (field_map : List (String × String)) :
    List (String × (Option FieldVal × Option FieldVal)) →
    List (String × List String × List String)
  | [] => []
  | (fid, vr, vc) :: rest =>
    match fieldDiff field_map fid vr vc with
    | some d => d :: personResult field_map rest
    | Option.none => personResult field_map rest

/-- Truthiness of an optional normalised profile: a missing side and an empty
dict are falsy. -/
def truthyProfile : Option (List (String × FieldVal)) → Bool
  | Option.none => false
  | some [] => false
  | some (_ :: _) => true

/-- Model of `profile_compare` (profile_helper.py lines 367-407): each person's
reference and current profiles are merged field-wise with `join_dicts` (a
missing side merges as the empty dict); persons with at least one recorded
field difference contribute `(person name, diffs)`, the name being read from
the reference profile when truthy, else from the current one. -/
def profile_compare :
    List (String × (Option (List (String × FieldVal)) × Option (List (String × FieldVal)))) →
    List (String × String) →
    List (Option FieldVal × List (String × List String × List String))
  | [], _ => []
  | (_, fr, fc) :: rest, field_map =>
    let merged := join_dicts (fr.getD []) (fc.getD [])
    let person_result := personResult field_map merged
    if person_result.isEmpty then profile_compare rest field_map
    else
      let base := if truthyProfile fr then fr.getD [] else fc.getD []
      (getKeyVal "name" base, person_result) :: profile_compare rest field_map

/-- Empty set differences in both directions mean the two sets are equal. -/
theorem setEqL_of_no_diff {a b : List String} (h1 : setDiffL a b = [])
    (h2 : setDiffL b a = []) : setEqL a b = true := by
  have ha : ∀ x ∈ a, b.contains x = true := by
    intro x hx
    by_contra hc
    have hm : x ∈ a.filter (fun x => !b.contains x) :=
      List.mem_filter.mpr ⟨hx, by simpa using hc⟩
    rw [show a.filter (fun x => !b.contains x) = [] from h1] at hm
    exact absurd hm (List.not_mem_nil x)
  have hb : ∀ x ∈ b, a.contains x = true := by
    intro x hx
    by_contra hc
    have hm : x ∈ b.filter (fun x => !a.contains x) :=
      List.mem_filter.mpr ⟨hx, by simpa using hc⟩
    rw [show b.filter (fun x => !a.contains x) = [] from h2] at hm
    exact absurd hm (List.not_mem_nil x)
  simp only [setEqL, Bool.and_eq_true, List.all_eq_true]
  exact ⟨ha, hb⟩

/-- Every tuple produced by the per-person loop has a non-empty difference
list on at least one side. -/
theorem personResult_no_empty (field_map : List (String × String)) :
    ∀ (merged : List (String × (Option FieldVal × Option FieldVal)))
      (d : String × List String × List String), d ∈ personResult field_map merged →
      d.2.1 ≠ [] ∨ d.2.2 ≠ [] := by
  intro merged
  induction merged with
  | nil =>
    intro d hd
    simp [personResult] at hd
  | cons e rest ih =>
    obtain ⟨fid, vr, vc⟩ := e
    intro d hd
    simp only [personResult] at hd
    cases hfd : fieldDiff field_map fid vr vc with
    | none =>
      rw [hfd] at hd
      exact ih d hd
    | some t =>
      rw [hfd] at hd
      rcases List.mem_cons.mp hd with rfl | hd
      · unfold fieldDiff at hfd
        split_ifs at hfd with h1 h2
        injection hfd with hfd
        subst hfd
        by_contra hboth
        push_neg at hboth
        simp only [ne_eq, not_not] at hboth
        exact h2 (setEqL_of_no_diff hboth.1 hboth.2)
      · exact ih d hd

/-- C3: a merged field pair whose two sides have equal value sets is never
recorded (`fieldDiff` yields nothing for it, so the per-person loop skips the
field), and every field tuple `profile_compare` does record carries a
non-empty difference list on at least one side. -/
theorem profile_compare_set_eq :
    (∀ (field_map : List (String × String)) (fid : String) (vr vc : Option FieldVal),
      setEqL (pySetL vr) (pySetL vc) = true →
      fieldDiff field_map fid vr vc = Option.none) ∧
    (∀ diffs field_map entry, entry ∈ profile_compare diffs field_map →
      ∀ d ∈ entry.2, d.2.1 ≠ [] ∨ d.2.2 ≠ []) := by
  constructor
  · intro field_map fid vr vc h
    unfold fieldDiff
    split_ifs with h1
    · rfl
    · rfl
  · intro diffs field_map entry hentry d hd
    induction diffs with
    | nil => simp [profile_compare] at hentry
    | cons pe rest ih =>
      obtain ⟨pid, fr, fc⟩ := pe
      simp only [profile_compare] at hentry
      split at hentry
      · exact ih hentry
      · rcases List.mem_cons.mp hentry with rfl | hentry
        · exact personResult_no_empty field_map _ d hd
        · exact ih hentry

/-- One-person diff input with a changed name field, used to instantiate the
differ theorem. -/
def c3Diffs :
    List (String × (Option (List (String × FieldVal)) × Option (List (String × FieldVal)))) :=
  [("1", (some [("name", FieldVal.s "A")], some [("name", FieldVal.s "B")]))]

/-- C3 witness: the differ theorem applied at a set-equal pair (reordered
lists) and at a concrete recorded difference. -/
theorem profile_compare_set_eq_witness :
    fieldDiff [] "f" (some (FieldVal.l ["a", "b"])) (some (FieldVal.l ["b", "a"])) =
        Option.none ∧
      ((["A"] : List String) ≠ [] ∨ (["B"] : List String) ≠ []) :=
  ⟨profile_compare_set_eq.1 [] "f" _ _ (by decide),
    profile_compare_set_eq.2 c3Diffs []
      (some (FieldVal.s "A"), [("name", ["A"], ["B"])]) (by decide)
      ("name", ["A"], ["B"]) (by decide)⟩

/-! The profile-field tables of `BreezeApi` (breeze.py). -/

/-- A profile field as stored in the lookup tables after
`_build_profile_fields`: the raw field enriched with its section name (the
`section_spec` back-reference the build loop adds). -/
structure BuiltField : Type where
  field_id : String
  name : String
  field_type : String
  section_name : String
deriving DecidableEq

/-- The built entry for one catalog field. -/
def builtOf (sec : CatSection) (fd : CatField) : BuiltField :=
  ⟨fd.field_id, fd.name, fd.field_type, sec.name⟩

/-- The three lookup structures filled by `_build_profile_fields`:
`profile_spec_by_id`, `profile_spec_by_name` and `profile_specs`. -/
structure FieldTables : Type where
  by_id : List (String × BuiltField)
  by_name : List (String × BuiltField)
  specs : List BuiltField
deriving DecidableEq

/-- The field loop of `_build_profile_fields` over one section.  Note that
`profile_spec_by_name` is keyed by the field's bare `name`. -/
def buildTablesOfSection (sec : CatSection) : List CatField → FieldTables → FieldTables
  | [], t => t
  | fd :: rest, t =>
    buildTablesOfSection sec rest
      ⟨setKey fd.field_id (builtOf sec fd) t.by_id,
       setKey fd.name (builtOf sec fd) t.by_name,
       t.specs ++ [builtOf sec fd]⟩

/-- The section loop of `_build_profile_fields`. -/
def buildTables : List CatSection → FieldTables → FieldTables
  | [], t => t
  | sec :: rest, t => buildTables rest (buildTablesOfSection sec sec.fields t)

/-- The mutable profile-field state of a `BreezeApi` instance, with a count of
the `_request` calls it has issued. -/
structure BreezeState : Type where
  profile_fields : List CatSection
  tables : FieldTables
  request_count : Nat
deriving DecidableEq

/-- A freshly constructed instance: empty tables, no fields, no requests. -/
def initBreezeState : BreezeState := ⟨[], ⟨[], [], []⟩, 0⟩

/-- Model of `BreezeApi._build_profile_fields`, with the HTTP endpoint as an
oracle from the request ordinal to the returned catalog: when
`self.profile_fields` is falsy (empty) the catalog is fetched and unwound into
the lookup tables; otherwise the cached list is returned unchanged. -/
def build_profile_fields (server : Nat → List CatSection) (s : BreezeState) :
    BreezeState × List CatSection :=
  if s.profile_fields.isEmpty then
    let resp := server s.request_count
    let s' : BreezeState := ⟨resp, buildTables resp s.tables, s.request_count + 1⟩
    (s', s'.profile_fields)
  else (s, s.profile_fields)

/-- Model of `BreezeApi.get_profile_fields`. -/
def get_profile_fields (server : Nat → List CatSection) (s : BreezeState) :
    BreezeState × List CatSection :=
  if s.profile_fields.isEmpty then build_profile_fields server s
  else (s, s.profile_fields)

/-- Model of `BreezeApi.get_field_spec_by_name`: build on first use, then look
the name up in `profile_spec_by_name`. -/
def get_field_spec_by_name (server : Nat → List CatSection) (s : BreezeState)
    (name : String) : BreezeState × Option BuiltField :=
  let s' := if s.profile_fields.isEmpty then (build_profile_fields server s).1 else s
  (s', getKeyVal name s'.tables.by_name)

/-- Model of `BreezeApi.field_value_from_name`: an unknown field name returns
the empty dict; otherwise the value under the field's id inside the person's
`details` (raising when `details` is absent, since Python calls `.get` on
`None`). -/
def field_value_from_name (server : Nat → List CatSection) (s : BreezeState)
    (field_name : String) (person_details : PyV) :
    BreezeState × Except PErr PyV :=
  match get_field_spec_by_name server s field_name with
  | (s', Option.none) => (s', Except.ok (PyV.dict []))
  | (s', some spec) =>
    (s', do
      let d ← pyGet person_details "details"
      pyGet d spec.field_id)

/-- All bare field names of a catalog, in order. -/
def catNames (catalog : List CatSection) : List String :=
  (catalog.map (fun sec => sec.fields.map CatField.name)).flatten

theorem mem_catNames {catalog : List CatSection} {sec : CatSection} {fd : CatField}
    (hs : sec ∈ catalog) (hf : fd ∈ sec.fields) : fd.name ∈ catNames catalog := by
  simp only [catNames, List.mem_flatten]
  exact ⟨sec.fields.map CatField.name, List.mem_map_of_mem _ hs,
    List.mem_map_of_mem _ hf⟩

theorem buildTablesOfSection_by_name_preserved (sec : CatSection) :
    ∀ (flds : List CatField) (t : FieldTables) (q : String),
      (∀ fd ∈ flds, fd.name ≠ q) →
      getKeyVal q (buildTablesOfSection sec flds t).by_name = getKeyVal q t.by_name := by
  intro flds
  induction flds with
  | nil => intro t q _; rfl
  | cons fd rest ih =>
    intro t q h
    simp only [buildTablesOfSection]
    rw [ih _ q (fun fd' hm => h fd' (List.mem_cons_of_mem _ hm))]
    exact getKeyVal_setKey_ne (h fd (List.mem_cons_self _ _)) _ _

theorem buildTables_by_name_preserved :
    ∀ (catalog : List CatSection) (t : FieldTables) (q : String),
      (∀ sec ∈ catalog, ∀ fd ∈ sec.fields, fd.name ≠ q) →
      getKeyVal q (buildTables catalog t).by_name = getKeyVal q t.by_name := by
  intro catalog
  induction catalog with
  | nil => intro t q _; rfl
  | cons sec rest ih =>
    intro t q h
    simp only [buildTables]
    rw [ih _ q (fun s hs => h s (List.mem_cons_of_mem _ hs))]
    exact buildTablesOfSection_by_name_preserved sec sec.fields t q
      (h sec (List.mem_cons_self _ _))

theorem buildTablesOfSection_by_name_found (sec : CatSection) :
    ∀ (flds : List CatField) (t : FieldTables) (fd : CatField), fd ∈ flds →
      (flds.map CatField.name).Nodup →
      getKeyVal fd.name (buildTablesOfSection sec flds t).by_name =
        some (builtOf sec fd) := by
  intro flds
  induction flds with
  | nil =>
    intro t fd h
    exact absurd h (List.not_mem_nil fd)
  | cons fd0 rest ih =>
    intro t fd hm hnd
    simp only [List.map_cons, List.nodup_cons] at hnd
    rcases List.mem_cons.mp hm with rfl | hm
    · have hpres := buildTablesOfSection_by_name_preserved sec rest
        ⟨setKey fd.field_id (builtOf sec fd) t.by_id,
         setKey fd.name (builtOf sec fd) t.by_name,
         t.specs ++ [builtOf sec fd]⟩ fd.name
        (fun fd' hm' heq => hnd.1 (heq ▸ List.mem_map_of_mem CatField.name hm'))
      simp only [buildTablesOfSection]
      rw [hpres]
      exact getKeyVal_setKey_self _ _ _
    · simp only [buildTablesOfSection]
      exact ih _ fd hm hnd.2

theorem buildTables_by_name_found :
    ∀ (catalog : List CatSection) (t : FieldTables) (sec : CatSection) (fd : CatField),
      sec ∈ catalog → fd ∈ sec.fields → (catNames catalog).Nodup →
      getKeyVal fd.name (buildTables catalog t).by_name = some (builtOf sec fd) := by
  intro catalog
  induction catalog with
  | nil =>
    intro t sec fd h
    exact absurd h (List.not_mem_nil sec)
  | cons sec0 rest ih =>
    intro t sec fd hsec hfd hnd
    have hnd' : (sec0.fields.map CatField.name).Nodup ∧ (catNames rest).Nodup ∧
        List.Disjoint (sec0.fields.map CatField.name) (catNames rest) := by
      simpa [catNames, List.nodup_append] using hnd
    rcases List.mem_cons.mp hsec with rfl | hsec
    · have hq : ∀ sec' ∈ rest, ∀ fd' ∈ sec'.fields, fd'.name ≠ fd.name := by
        intro sec' hs' fd' hf' heq
        exact hnd'.2.2 (List.mem_map_of_mem CatField.name hfd)
          (heq ▸ mem_catNames hs' hf')
      simp only [buildTables]
      rw [buildTables_by_name_preserved rest _ fd.name hq]
      exact buildTablesOfSection_by_name_found sec sec.fields t fd hfd hnd'.1
    · simp only [buildTables]
      exact ih _ sec fd hsec hfd hnd'.2.1

/-- C7 (amended): on a fresh instance the by-name lookup table is keyed by the
bare field name: for a catalog with pairwise distinct bare field names,
`get_field_spec_by_name` with the bare name returns the field's spec (with its
section back-reference), and `field_value_from_name` with the bare name
returns the value stored under the field's id in the person's `details`
(Python `None`, modelled as `PyV.none`, when the field has no value there). -/
theorem field_spec_by_bare_name (resp : List CatSection) (sec : CatSection)
    (fd : CatField) (hsec : sec ∈ resp) (hfd : fd ∈ sec.fields)
    (hnd : (catNames resp).Nodup) (dv : List (String × PyV)) :
    (get_field_spec_by_name (fun _ => resp) initBreezeState fd.name).2 =
      some (builtOf sec fd) ∧
    (field_value_from_name (fun _ => resp) initBreezeState fd.name
        (PyV.dict [("details", PyV.dict dv)])).2 =
      Except.ok (dictLookup dv fd.field_id) := by
  have hfound := buildTables_by_name_found resp ⟨[], [], []⟩ sec fd hsec hfd hnd
  constructor
  · simp [get_field_spec_by_name, build_profile_fields, initBreezeState, hfound]
  · simp [field_value_from_name, get_field_spec_by_name, build_profile_fields,
      initBreezeState, hfound, pyGet, dictLookup, builtOf]

/-- C7 counterexample: for the one-field catalog (section `Main`, field
`Phone`), looking up the fully-qualified name `Main:Phone` finds nothing,
while the bare name `Phone` finds the field: the by-name table is keyed by
the bare name. -/
theorem field_spec_by_qualified_name_cex :
    (get_field_spec_by_name (fun _ => [⟨"Main", [⟨"42", "Phone", "phone"⟩]⟩])
        initBreezeState "Main:Phone").2 = Option.none ∧
    (get_field_spec_by_name (fun _ => [⟨"Main", [⟨"42", "Phone", "phone"⟩]⟩])
        initBreezeState "Phone").2 = some ⟨"42", "Phone", "phone", "Main"⟩ := by
  decide

/-- C7 witness: the bare-name lookup theorem applied at a concrete catalog
and person. -/
theorem field_spec_by_bare_name_witness :
    (get_field_spec_by_name (fun _ => [⟨"Main", [⟨"42", "Phone", "phone"⟩]⟩])
        initBreezeState "Phone").2 =
      some (builtOf ⟨"Main", [⟨"42", "Phone", "phone"⟩]⟩ ⟨"42", "Phone", "phone"⟩) ∧
    (field_value_from_name (fun _ => [⟨"Main", [⟨"42", "Phone", "phone"⟩]⟩])
        initBreezeState "Phone"
        (PyV.dict [("details", PyV.dict [("42", PyV.str "555")])])).2 =
      Except.ok (dictLookup [("42", PyV.str "555")] "42") :=
  field_spec_by_bare_name [⟨"Main", [⟨"42", "Phone", "phone"⟩]⟩]
    ⟨"Main", [⟨"42", "Phone", "phone"⟩]⟩ ⟨"42", "Phone", "phone"⟩
    (by decide) (by decide) (by decide) [("42", PyV.str "555")]

/-- Catalog section used by the memoisation counterexample and witness. -/
def c9Section : CatSection := ⟨"S", [⟨"1", "F", "phone"⟩]⟩

/-- A server that returns an empty catalog on the first request and a
non-empty one afterwards. -/
def c9Server : Nat → List CatSection :=
  fun n => if n = 0 then [] else [c9Section]

/-- C9 counterexample: when the first response is empty (falsy), the build is
not memoised: a second `get_profile_fields` call issues a second request and
can return different catalog data. -/
theorem get_profile_fields_memo_cex :
    (get_profile_fields c9Server initBreezeState).2 = [] ∧
    (get_profile_fields c9Server (get_profile_fields c9Server initBreezeState).1).2 =
      [c9Section] ∧
    ([] : List CatSection) ≠ [c9Section] ∧
    (get_profile_fields c9Server
        (get_profile_fields c9Server initBreezeState).1).1.request_count = 2 := by
  decide

/-- C9 (amended): from a fresh instance, provided the first response is
non-empty, two `get_profile_fields` calls return identical catalog data, the
second call returns the memoised result with the state unchanged, and the
underlying request is issued exactly once. -/
theorem get_profile_fields_memo (server : Nat → List CatSection)
    (h : server 0 ≠ []) :
    (get_profile_fields server initBreezeState).2 = server 0 ∧
    (get_profile_fields server (get_profile_fields server initBreezeState).1).2 =
      (get_profile_fields server initBreezeState).2 ∧
    (get_profile_fields server (get_profile_fields server initBreezeState).1).1 =
      (get_profile_fields server initBreezeState).1 ∧
    (get_profile_fields server initBreezeState).1.request_count = 1 := by
  have h1 : (server 0).isEmpty = false := by
    cases hs : server 0 with
    | nil => exact absurd hs h
    | cons a t => rfl
  simp [get_profile_fields, build_profile_fields, initBreezeState, h1]

/-- C9 witness: the memoisation theorem applied at a constant non-empty
server. -/
theorem get_profile_fields_memo_witness :
    (get_profile_fields (fun _ => [c9Section]) initBreezeState).2 = [c9Section] ∧
    (get_profile_fields (fun _ => [c9Section])
        (get_profile_fields (fun _ => [c9Section]) initBreezeState).1).2 =
      (get_profile_fields (fun _ => [c9Section]) initBreezeState).2 ∧
    (get_profile_fields (fun _ => [c9Section])
        (get_profile_fields (fun _ => [c9Section]) initBreezeState).1).1 =
      (get_profile_fields (fun _ => [c9Section]) initBreezeState).1 ∧
    (get_profile_fields (fun _ => [c9Section]) initBreezeState).1.request_count = 1 :=
  get_profile_fields_memo (fun _ => [c9Section]) (by decide)

/-! Heap-level rendering of `join_dicts`: the Python function receives its two
dictionaries by reference, copies them (`OrderedDict(values_left)`,
`OrderedDict(values_right)`), and the loop pops from and writes to those
copies only.  The state-passing model below makes the mutation explicit to
settle the frame claim that the inputs are untouched. -/

/-- A store of ordered dictionaries, addressed by index. -/
abbrev Heap (α : Type) : Type := List (List (String × α))

/-- Read the dictionary at an address (out-of-range reads give the empty
dictionary; the entry point only uses in-range addresses). -/
def readH {α : Type} (h : Heap α) (a : Nat) : List (String × α) :=
  h.getD a []

/-- Overwrite the dictionary at an address. -/
def writeH {α : Type} (h : Heap α) (a : Nat) (v : List (String × α)) : Heap α :=
  h.set a v

theorem readH_writeH_ne {α : Type} {a b : Nat} (hne : a ≠ b) (h : Heap α)
    (v : List (String × α)) : readH (writeH h b v) a = readH h a := by
  simp [readH, writeH, List.getD, List.getElem?_set_ne (Ne.symm hne)]

theorem readH_append_lt {α : Type} {h : Heap α} {a : Nat} (hlt : a < h.length)
    (l2 : Heap α) : readH (h ++ l2) a = readH h a := by
  simp [readH, List.getD, List.getElem?_append, hlt]

/-- The `join_dicts` loop acting on the heap cells holding `dat_left` and
`dat_right`: each iteration reads both queues, emits as in `joinLoopF`, and
writes the advanced queues back to the same two addresses. -/
def joinLoopHF {α : Type} : Nat → Heap α → Nat → Nat →
    Heap α × List (String × (Option α × Option α))
  | 0, h, _, _ => (h, [])
  | fuel + 1, h, la, ra =>
    match readH h la, readH h ra with
    | [], [] => (h, [])
    | [], (kr, vr) :: rt =>
      if kr == "" then (h, [])
      else
        let step := joinLoopHF fuel (writeH h ra rt) la ra
        (step.1, (kr, (some vr, Option.none)) :: step.2)
    | (kl, vl) :: lt, [] =>
      if kl == "" then (h, [])
      else
        let step := joinLoopHF fuel (writeH h la lt) la ra
        (step.1, (kl, (Option.none, some vl)) :: step.2)
    | (kl, vl) :: lt, (kr, vr) :: rt =>
      if kl == "" && kr == "" then (h, [])
      else if kl == kr then
        let step := joinLoopHF fuel (writeH (writeH h la lt) ra rt) la ra
        (step.1, (kr, (some vr, some vl)) :: step.2)
      else if containsKey kl rt then
        let step := joinLoopHF fuel
          (writeH (writeH h la lt) ra ((kr, vr) :: eraseKey kl rt)) la ra
        (step.1, (kl, (getKeyVal kl rt, some vl)) :: step.2)
      else if containsKey kr lt then
        let step := joinLoopHF fuel (writeH (writeH h la lt) ra (setKey kr vr rt)) la ra
        (step.1, (kl, (Option.none, some vl)) :: step.2)
      else if kr == "" then
        let step := joinLoopHF fuel (writeH h la lt) la ra
        (step.1, (kl, (Option.none, some vl)) :: step.2)
      else if kl == "" then
        let step := joinLoopHF fuel (writeH h ra rt) la ra
        (step.1, (kr, (some vr, Option.none)) :: step.2)
      else
        let step := joinLoopHF fuel (writeH (writeH h la lt) ra rt) la ra
        (step.1, (kr, (some vr, Option.none)) :: (kl, (Option.none, some vl)) :: step.2)

/-- Model of `join_dicts` at the heap level: the inputs live in the store at
`rAddr` and `lAddr`; the function allocates fresh cells holding copies of
them (`OrderedDict(...)`) and runs the loop against those copies. -/
def join_dicts_heap {α : Type} (h : Heap α) (rAddr lAddr : Nat) :
    Heap α × List (String × (Option α × Option α)) :=
  let dl := readH h lAddr
  let h1 := h ++ [dl]
  let la := h.length
  let dr := readH h1 rAddr
  let h2 := h1 ++ [dr]
  let ra := h1.length
  joinLoopHF (dl.length + dr.length + 1) h2 la ra

/-- The loop writes only to the two queue cells: every other address is left
untouched, for any fuel. -/
theorem joinLoopHF_frame {α : Type} :
    ∀ (fuel : Nat) (h : Heap α) (la ra a : Nat), a ≠ la → a ≠ ra →
      readH (joinLoopHF fuel h la ra).1 a = readH h a := by
  intro fuel
  induction fuel with
  | zero => intro h la ra a _ _; rfl
  | succ fuel ih =>
    intro h la ra a hla hra
    simp only [joinLoopHF]
    cases hl : readH h la with
    | nil =>
      cases hr : readH h ra with
      | nil => rfl
      | cons er rt =>
        obtain ⟨kr, vr⟩ := er
        by_cases h0 : (kr == "") = true
        · simp only [if_pos h0]
        · simp only [if_neg h0]
          rw [ih _ la ra a hla hra, readH_writeH_ne hra]
    | cons el lt =>
      obtain ⟨kl, vl⟩ := el
      cases hr : readH h ra with
      | nil =>
        by_cases h0 : (kl == "") = true
        · simp only [if_pos h0]
        · simp only [if_neg h0]
          rw [ih _ la ra a hla hra, readH_writeH_ne hla]
      | cons er rt =>
        obtain ⟨kr, vr⟩ := er
        by_cases h0 : (kl == "" && kr == "") = true
        · simp only [if_pos h0]
        · simp only [if_neg h0]
          by_cases h1 : (kl == kr) = true
          · simp only [if_pos h1]
            rw [ih _ la ra a hla hra, readH_writeH_ne hra, readH_writeH_ne hla]
          · simp only [if_neg h1]
            by_cases h2 : containsKey kl rt = true
            · simp only [if_pos h2]
              rw [ih _ la ra a hla hra, readH_writeH_ne hra, readH_writeH_ne hla]
            · simp only [if_neg h2]
              by_cases h3 : containsKey kr lt = true
              · simp only [if_pos h3]
                rw [ih _ la ra a hla hra, readH_writeH_ne hra, readH_writeH_ne hla]
              · simp only [if_neg h3]
                by_cases h4 : (kr == "") = true
                · simp only [if_pos h4]
                  rw [ih _ la ra a hla hra, readH_writeH_ne hla]
                · simp only [if_neg h4]
                  by_cases h5 : (kl == "") = true
                  · simp only [if_pos h5]
                    rw [ih _ la ra a hla hra, readH_writeH_ne hra]
                  · simp only [if_neg h5]
                    rw [ih _ la ra a hla hra, readH_writeH_ne hra, readH_writeH_ne hla]

/-- C10: `join_dicts` never mutates its arguments: after the call, the store
still holds exactly the same association lists (keys, key order, and values)
at both input addresses — the loop pops from the freshly allocated internal
copies only. -/
theorem join_dicts_heap_frame {α : Type} (h : Heap α) (rAddr lAddr : Nat)
    (hr : rAddr < h.length) (hl : lAddr < h.length) :
    readH (join_dicts_heap h rAddr lAddr).1 rAddr = readH h rAddr ∧
    readH (join_dicts_heap h rAddr lAddr).1 lAddr = readH h lAddr := by
  unfold join_dicts_heap
  simp only []
  constructor
  · rw [joinLoopHF_frame _ _ _ _ _ (by omega) (by simp [List.length_append]; omega)]
    rw [readH_append_lt (by simp [List.length_append]; omega),
      readH_append_lt (by omega)]
  · rw [joinLoopHF_frame _ _ _ _ _ (by omega) (by simp [List.length_append]; omega)]
    rw [readH_append_lt (by simp [List.length_append]; omega),
      readH_append_lt (by omega)]

/-- C10 witness: the frame theorem applied at a concrete two-cell store. -/
theorem join_dicts_heap_frame_witness :
    readH (join_dicts_heap [[("a", "1")], [("b", "2")]] 0 1).1 0 =
        readH [[("a", "1")], [("b", "2")]] 0 ∧
      readH (join_dicts_heap [[("a", "1")], [("b", "2")]] 0 1).1 1 =
        readH [[("a", "1")], [("b", "2")]] 1 :=
  join_dicts_heap_frame [[("a", "1")], [("b", "2")]] 0 1 (by decide) (by decide)

end Breeze
